import Mathlib

/-!
Shallow embedding of the Website-Auto-Ping-link server core (src/index.ts).

Instants are modelled as `Int` milliseconds since the epoch (JavaScript `Date`
values compare by their millisecond timestamp).  Elapsed durations are `Nat`
milliseconds.  The network is modelled by an oracle: for each URL the
environment supplies the fetch result (an HTTP response or a transport error)
together with the elapsed time of that call.
-/

set_option autoImplicit false

namespace AutoPing

/-- Embeds the TypeScript `PingTarget` interface: `url`, optional `lastPing`
(a `Date`, here ms), optional `status` text. -/
structure PingTarget where
  url : String
  lastPing : Option Int := none
  status : Option String := none
deriving DecidableEq, Repr

/-- Embeds the TypeScript `User` interface.  `lastLogin` is optional because
`cleanupInactiveAccounts` guards `user.lastLogin ? ... : new Date(0)` for
records loaded from disk that lack the field. -/
structure User where
  id : String
  username : String
  password : String
  pingTargets : List PingTarget := []
  lastLogin : Option Int := none
deriving DecidableEq, Repr

/-- Embeds the TypeScript `Session` interface. -/
structure Session where
  userId : String
  expires : Int
deriving DecidableEq, Repr

/-- The `sessions` object: a string-keyed map, embedded as an association
list with unique keys (JavaScript object keys are unique). -/
abbrev SessionStore := List (String × Session)

/-- The two mutable globals `users` and `sessions`. -/
structure ServerState where
  users : List User
  sessions : SessionStore
deriving DecidableEq, Repr

/-- `2 * 24 * 60 * 60 * 1000` ms, the retention window in
`cleanupInactiveAccounts`. -/
def retentionMs : Int := 2 * 24 * 60 * 60 * 1000

/-- `user.lastLogin ? new Date(user.lastLogin) : new Date(0)` — a user that
never authenticated is given the epoch instant 0. -/
def lastLoginD (u : User) : Int := u.lastLogin.getD 0

/-- Observable side effects of one Account Reaper tick: the `console.log`
call and the `saveUsers()` persistence flush. -/
inductive ReaperEvent where
  | log (deletedCount : Nat)
  | flush
deriving DecidableEq, Repr

/-- Embeds `cleanupInactiveAccounts` (src/index.ts lines 58–81): filter the
user list by `lastLogin > twoDaysAgo`; if anything was deleted, log, flush,
and prune every session whose `userId` no longer resolves via
`users.find(u => u.id === session.userId)`.  Returns the new state together
with the list of emitted effects. -/
def cleanupInactiveAccounts (now : Int) (s : ServerState) :
    ServerState × List ReaperEvent :=
  let twoDaysAgo : Int := now - retentionMs
  let users' := s.users.filter (fun u => decide (twoDaysAgo < lastLoginD u))
  let deletedCount := s.users.length - users'.length
  if 0 < deletedCount then
    let sessions' := s.sessions.filter
      (fun p => (users'.find? (fun u => u.id == p.2.userId)).isSome)
    (⟨users', sessions'⟩, [ReaperEvent.log deletedCount, ReaperEvent.flush])
  else
    (⟨users', s.sessions⟩, [])

/-- `delete sessions[sessionId]`. -/
def deleteSession (sessions : SessionStore) (sid : String) : SessionStore :=
  sessions.filter (fun p => !(p.1 == sid))

/-- Embeds `isValidSession` (src/index.ts lines 140–147): look the token up;
if absent or `session.expires < new Date()`, delete the entry and return
`null`; otherwise return `users.find(u => u.id === session.userId) || null`.
Returns the looked-up user together with the (possibly mutated) session
store. -/
def isValidSession (now : Int) (users : List User) (sessions : SessionStore)
    (sid : String) : Option User × SessionStore :=
  match sessions.lookup sid with
  | none => (none, deleteSession sessions sid)
  | some sess =>
    if sess.expires < now then
      (none, deleteSession sessions sid)
    else
      (users.find? (fun u => u.id == sess.userId), sessions)

/-- What one `fetch` call produced: a response (HTTP status code and status
text) or a thrown transport/timeout error with a message. -/
inductive FetchResult where
  | response (status : Nat) (statusText : String)
  | fetchError (message : String)
deriving DecidableEq, Repr

/-- Return value of `pingUrl`: `{ status: string; responseTime: number }`. -/
structure PingOutcome where
  status : String
  responseTime : Nat
deriving DecidableEq, Repr

/-- Embeds `pingUrl` (src/index.ts lines 89–108).  The network behaviour and
the elapsed wall-clock time are inputs; on a response the status is
`` `${response.status} ${response.statusText}` ``, on a caught error it is
`` `Error: ${error.message}` ``.  Total by construction: every failure mode
is captured into the returned value. -/
def pingUrl (res : FetchResult) (elapsedMs : Nat) : PingOutcome :=
  match res with
  | .response st stx => ⟨toString st ++ " " ++ stx, elapsedMs⟩
  | .fetchError msg => ⟨"Error: " ++ msg, elapsedMs⟩

/-- A network oracle: per URL, the fetch result and the elapsed ms of that
call. -/
abbrev Prober := String → FetchResult × Nat

/-- Observable side effects of one sweep tick: a write of both outcome
fields onto the target with the given URL, and the end-of-sweep
`saveUsers()` flush. -/
inductive SweepEvent where
  | write (url : String)
  | flush
deriving DecidableEq, BEq, Repr

/-- `` `${result.status} (${result.responseTime}ms)` `` — the outcome text
written onto a target. -/
def targetStatusText (out : PingOutcome) : String :=
  out.status ++ " (" ++ toString out.responseTime ++ "ms)"

/-- Inner loop of `pingAllUrls`: probe each target in insertion order,
setting `target.lastPing = new Date()` and `target.status` together.  Time
is threaded: each probe advances the wall clock by its elapsed ms, and the
`lastPing` write happens at the post-probe instant.  Returns the updated
targets, the clock after the loop, and the write events in order. -/
def sweepTargets (prober : Prober) (t : Int) :
    List PingTarget → List PingTarget × Int × List SweepEvent
  | [] => ([], t, [])
  | tg :: rest =>
    let pr := prober tg.url
    let out := pingUrl pr.1 pr.2
    let t' := t + (pr.2 : Int)
    let tg' : PingTarget :=
      { url := tg.url, lastPing := some t', status := some (targetStatusText out) }
    let r := sweepTargets prober t' rest
    (tg' :: r.1, r.2.1, SweepEvent.write tg.url :: r.2.2)

/-- Outer loop of `pingAllUrls`: accounts in store order. -/
def sweepUsers (prober : Prober) (t : Int) :
    List User → List User × Int × List SweepEvent
  | [] => ([], t, [])
  | u :: rest =>
    let r := sweepTargets prober t u.pingTargets
    let rr := sweepUsers prober r.2.1 rest
    ({ u with pingTargets := r.1 } :: rr.1, rr.2.1, r.2.2 ++ rr.2.2)

/-- Embeds `pingAllUrls` (src/index.ts lines 111–130): the double iteration,
then one `saveUsers()` flush.  `t0` is the tick-start instant. -/
def pingAllUrls (prober : Prober) (t0 : Int) (users : List User) :
    List User × List SweepEvent :=
  let r := sweepUsers prober t0 users
  (r.1, r.2.2 ++ [SweepEvent.flush])

/-- Result of the add-target operation (spec §6: `ok | InvalidUrl`); the
`invalidUrl` constructor labels the handler branch in which the URL fails
the scheme check and no target is created. -/
inductive AddResult where
  | ok
  | invalidUrl
deriving DecidableEq, Repr

/-- JavaScript `String.prototype.startsWith(p)`: `p` occurs at the start of
the string.  Embedded over the character sequence. -/
def strStartsWith (s p : String) : Bool := p.data.isPrefixOf s.data

/-- `newUrl.startsWith('http://') || newUrl.startsWith('https://')` from the
`/add` handler. -/
def validPingUrl (u : String) : Bool :=
  strStartsWith u "http://" || strStartsWith u "https://"

/-- Embeds the `/add` handler body (src/index.ts lines 260–279): if the URL
passes the scheme check and `pingTargets.find(target => target.url === newUrl)`
finds nothing, push the new target with its initial status text; a duplicate add
is a no-op; an invalid URL changes nothing. -/
def addTarget (targets : List PingTarget) (newUrl : String) :
    AddResult × List PingTarget :=
  if validPingUrl newUrl then
    if (targets.find? (fun t => t.url == newUrl)).isSome then
      (AddResult.ok, targets)
    else
      (AddResult.ok,
        targets ++ [{ url := newUrl, lastPing := none, status := some "Chưa ping" }])
  else
    (AddResult.invalidUrl, targets)

/-- Embeds the `/remove` handler body (src/index.ts lines 282–298):
`pingTargets.filter(target => target.url !== urlToRemove)`. -/
def removeTarget (targets : List PingTarget) (u : String) : List PingTarget :=
  targets.filter (fun t => !(t.url == u))

/-- URLs of a target list, in order. -/
def urlsOf (ts : List PingTarget) : List String := ts.map (fun t => t.url)

/-- Recognizes the persistence-flush event of a sweep tick. -/
def isFlush : SweepEvent → Bool
  | SweepEvent.flush => true
  | SweepEvent.write _ => false

/-- A concrete account whose last login is the epoch instant 0. -/
def aliceC1 : User :=
  { id := "a", username := "alice", password := "h", pingTargets := [], lastLogin := some 0 }

/-- A concrete session for `aliceC1` expiring at instant 5. -/
def sessC2 : Session := ⟨"a", 5⟩

/-- A concrete recently-authenticated account. -/
def bobC8 : User :=
  { id := "b", username := "bob", password := "h", pingTargets := [], lastLogin := some 1 }

/-- A concrete stale account owning an active session. -/
def carolC9 : User :=
  { id := "c", username := "carol", password := "h", pingTargets := [], lastLogin := some 0 }

/-- State for the orphan-cleanup witness: one stale account, one session owned
by it. -/
def stateC9 : ServerState := ⟨[carolC9], [("t", ⟨"c", 99⟩)]⟩

/-! ## General lemmas -/

/-- A filter that loses no length keeps every element. -/
theorem filter_eq_self_of_le_length {α : Type} (p : α → Bool) (l : List α)
    (h : l.length ≤ (l.filter p).length) : l.filter p = l := by
  induction l with
  | nil => rfl
  | cons a t ih =>
    by_cases hp : p a
    · simp only [List.filter_cons, hp, if_true, List.length_cons] at h ⊢
      rw [ih (by omega)]
    · exfalso
      have hlen := List.length_filter_le p t
      simp [List.filter_cons, hp] at h
      omega

/-- The reaper tick always leaves exactly the users whose last login is
strictly newer than the cutoff. -/
theorem cleanup_users_eq (now : Int) (s : ServerState) :
    (cleanupInactiveAccounts now s).1.users
      = s.users.filter (fun u => decide (now - retentionMs < lastLoginD u)) := by
  simp only [cleanupInactiveAccounts]
  split <;> rfl

/-- Looking a key up after deleting it finds nothing. -/
theorem lookup_deleteSession (sessions : SessionStore) (sid : String) :
    (deleteSession sessions sid).lookup sid = none := by
  induction sessions with
  | nil => rfl
  | cons p t ih =>
    by_cases h : p.1 == sid
    · simpa [deleteSession, List.filter_cons, h] using ih
    · have h' : (sid == p.1) = false := by
        have hne : ¬ p.1 = sid := by simpa using h
        exact beq_eq_false_iff_ne.2 (fun e => hne e.symm)
      simpa [deleteSession, List.filter_cons, h, List.lookup, h'] using ih

/-- The sweep clock never moves backwards. -/
theorem sweepTargets_time_mono (prober : Prober) (t : Int) (ts : List PingTarget) :
    t ≤ (sweepTargets prober t ts).2.1 := by
  induction ts generalizing t with
  | nil => exact le_refl t
  | cons tg rest ih =>
    have h1 : (0 : Int) ≤ ((prober tg.url).2 : Int) := Int.ofNat_nonneg _
    have h2 := ih (t + ((prober tg.url).2 : Int))
    simp only [sweepTargets] at h2 ⊢
    omega

/-- The sweep preserves each target's URL, hence also count and order. -/
theorem sweepTargets_urls (prober : Prober) (t : Int) (ts : List PingTarget) :
    urlsOf (sweepTargets prober t ts).1 = urlsOf ts := by
  induction ts generalizing t with
  | nil => rfl
  | cons tg rest ih => simp [sweepTargets, urlsOf] at ih ⊢; exact ih _

/-- After the inner sweep loop, every target carries a formatted outcome and a
last-check instant at or after the loop-start instant, written together. -/
theorem sweepTargets_written (prober : Prober) (t : Int) (ts : List PingTarget) :
    ∀ tg ∈ (sweepTargets prober t ts).1,
      (∃ out : PingOutcome, tg.status = some (targetStatusText out)) ∧
      (∃ tw : Int, tg.lastPing = some tw ∧ t ≤ tw) := by
  induction ts generalizing t with
  | nil => intro tg h; cases h
  | cons tg0 rest ih =>
    intro tg h
    have hnn : (0 : Int) ≤ ((prober tg0.url).2 : Int) := Int.ofNat_nonneg _
    simp only [sweepTargets, List.mem_cons] at h
    rcases h with h | h
    · subst h
      refine ⟨⟨pingUrl (prober tg0.url).1 (prober tg0.url).2, rfl⟩,
        ⟨t + ((prober tg0.url).2 : Int), rfl, by omega⟩⟩
    · obtain ⟨hstat, tw, h1, h2⟩ := ih (t + ((prober tg0.url).2 : Int)) tg h
      exact ⟨hstat, ⟨tw, h1, by omega⟩⟩

/-- The inner sweep loop emits exactly one write event per target, in
insertion order. -/
theorem sweepTargets_events (prober : Prober) (t : Int) (ts : List PingTarget) :
    (sweepTargets prober t ts).2.2 = ts.map (fun tg => SweepEvent.write tg.url) := by
  induction ts generalizing t with
  | nil => rfl
  | cons tg rest ih => simp only [sweepTargets, List.map_cons, ih]

/-- The inner sweep loop never drops a target. -/
theorem sweepTargets_length (prober : Prober) (t : Int) (ts : List PingTarget) :
    (sweepTargets prober t ts).1.length = ts.length := by
  have h := sweepTargets_urls prober t ts
  have := congrArg List.length h
  simpa [urlsOf] using this

/-- The outer sweep clock never moves backwards. -/
theorem sweepUsers_time_mono (prober : Prober) (t : Int) (users : List User) :
    t ≤ (sweepUsers prober t users).2.1 := by
  induction users generalizing t with
  | nil => exact le_refl t
  | cons u rest ih =>
    have h1 := sweepTargets_time_mono prober t u.pingTargets
    have h2 := ih (sweepTargets prober t u.pingTargets).2.1
    simp only [sweepUsers] at h2 ⊢
    omega

/-- The outer sweep loop preserves the per-account target URLs in order. -/
theorem sweepUsers_urls (prober : Prober) (t : Int) (users : List User) :
    (sweepUsers prober t users).1.map (fun u => urlsOf u.pingTargets)
      = users.map (fun u => urlsOf u.pingTargets) := by
  induction users generalizing t with
  | nil => rfl
  | cons u rest ih =>
    simp only [sweepUsers, List.map_cons]
    exact congrArg₂ _ (sweepTargets_urls prober t u.pingTargets) (ih _)

/-- After the outer sweep loop, every target of every account carries a
formatted outcome and an instant at or after the tick start. -/
theorem sweepUsers_written (prober : Prober) (t : Int) (users : List User) :
    ∀ u ∈ (sweepUsers prober t users).1, ∀ tg ∈ u.pingTargets,
      (∃ out : PingOutcome, tg.status = some (targetStatusText out)) ∧
      (∃ tw : Int, tg.lastPing = some tw ∧ t ≤ tw) := by
  induction users generalizing t with
  | nil => intro u h; cases h
  | cons u0 rest ih =>
    intro u hu tg htg
    have hmono := sweepTargets_time_mono prober t u0.pingTargets
    simp only [sweepUsers, List.mem_cons] at hu
    rcases hu with hu | hu
    · subst hu
      exact sweepTargets_written prober t u0.pingTargets tg htg
    · obtain ⟨hstat, tw, h1, h2⟩ :=
        ih (sweepTargets prober t u0.pingTargets).2.1 u hu tg htg
      exact ⟨hstat, ⟨tw, h1, by omega⟩⟩

/-- The outer sweep loop never drops an account. -/
theorem sweepUsers_length (prober : Prober) (t : Int) (users : List User) :
    (sweepUsers prober t users).1.length = users.length := by
  have := congrArg List.length (sweepUsers_urls prober t users)
  simpa using this

/-- The outer sweep loop emits the write events of all accounts, in store
order then insertion order, and nothing else. -/
theorem sweepUsers_events (prober : Prober) (t : Int) (users : List User) :
    (sweepUsers prober t users).2.2
      = users.flatMap (fun u => u.pingTargets.map (fun tg => SweepEvent.write tg.url)) := by
  induction users generalizing t with
  | nil => rfl
  | cons u rest ih =>
    simp only [sweepUsers, List.flatMap_cons]
    exact congrArg₂ _ (sweepTargets_events prober t u.pingTargets) (ih _)

/-- The formatted outcome text is never the empty string. -/
theorem targetStatusText_ne_empty (out : PingOutcome) : targetStatusText out ≠ "" := by
  intro h
  have hlen := congrArg String.length h
  have h1 : (" (" : String).length = 2 := rfl
  have h2 : ("ms)" : String).length = 3 := rfl
  simp [targetStatusText, String.length_append, h1, h2] at hlen

/-- A write event is not a flush. -/
theorem countP_isFlush_writes (l : List PingTarget) :
    List.countP isFlush (l.map (fun tg => SweepEvent.write tg.url)) = 0 := by
  induction l with
  | nil => rfl
  | cons tg rest ih => simp [List.countP_cons, isFlush, ih]

/-- None of the write events of a full sweep is a flush. -/
theorem countP_isFlush_flatMap (users : List User) :
    List.countP isFlush
      (users.flatMap (fun u => u.pingTargets.map (fun tg => SweepEvent.write tg.url)))
        = 0 := by
  induction users with
  | nil => rfl
  | cons u rest ih =>
    rw [List.flatMap_cons, List.countP_append, countP_isFlush_writes, ih]

/-! ## Claim theorems -/

/-- Claim C1 counterexample: the claim says an account whose
last-authenticated instant is exactly `now - retentionWindow` is NOT removed,
but at `now = retentionMs` the account `aliceC1` (last login 0, exactly the
cutoff) is removed by one reaper tick. -/
theorem c1_counterexample :
    lastLoginD aliceC1 = retentionMs - retentionMs ∧
    (cleanupInactiveAccounts retentionMs ⟨[aliceC1], []⟩).1.users = [] := by
  decide

/-- Claim C1 (amended): one reaper tick keeps an account if and only if its
last-authenticated instant is strictly newer than `now - retentionMs`;
equivalently it removes every account whose instant is less than or equal to
the cutoff, including the exact-boundary one, and an account that never
authenticated is treated as having instant 0 (maximally stale). -/
theorem c1_reaper_threshold (now : Int) (s : ServerState) (u : User) :
    (u ∈ (cleanupInactiveAccounts now s).1.users ↔
      u ∈ s.users ∧ now - retentionMs < lastLoginD u) ∧
    (u.lastLogin = none → lastLoginD u = 0) := by
  constructor
  · rw [cleanup_users_eq, List.mem_filter]
    simp
  · intro h
    simp [lastLoginD, h]

/-- Claim C2 counterexample: the claim says a token present with
`expiry ≤ now` is deleted and `validate` returns none, but at `now = 5` the
session `sessC2` (expiry 5, so expiry ≤ now) is accepted: the user is
returned and the entry is kept. -/
theorem c2_counterexample :
    sessC2.expires ≤ (5 : Int) ∧
    (isValidSession 5 [aliceC1] [("tok", sessC2)] "tok").1 = some aliceC1 ∧
    (isValidSession 5 [aliceC1] [("tok", sessC2)] "tok").2 = [("tok", sessC2)] := by
  decide

/-- Claim C2 (amended): `validate` returns none for an absent token; for a
token whose expiry is strictly in the past (`expiry < now`) it deletes the
entry and returns none, and a subsequent `validate` on the same token still
returns none; a token with `now ≤ expiry` (including expiry exactly equal to
now) is still accepted, returning the account found by the stored identifier
with the store unchanged. -/
theorem c2_session_lazy_expiry (now : Int) (users : List User)
    (sessions : SessionStore) (sid : String) :
    (sessions.lookup sid = none → (isValidSession now users sessions sid).1 = none) ∧
    (∀ sess, sessions.lookup sid = some sess → sess.expires < now →
      (isValidSession now users sessions sid).1 = none ∧
      ((isValidSession now users sessions sid).2).lookup sid = none ∧
      (isValidSession now users ((isValidSession now users sessions sid).2) sid).1
        = none) ∧
    (∀ sess, sessions.lookup sid = some sess → now ≤ sess.expires →
      isValidSession now users sessions sid
        = (users.find? (fun u => u.id == sess.userId), sessions)) := by
  refine ⟨?_, ?_, ?_⟩
  · intro h
    simp [isValidSession, h]
  · intro sess hl he
    have h2 : (isValidSession now users sessions sid).2 = deleteSession sessions sid := by
      simp [isValidSession, hl, he]
    refine ⟨by simp [isValidSession, hl, he], ?_, ?_⟩
    · rw [h2]
      exact lookup_deleteSession _ _
    · rw [h2]
      simp [isValidSession, lookup_deleteSession]
  · intro sess hl he
    have hn : ¬ sess.expires < now := not_lt.2 he
    simp [isValidSession, hl, hn]

/-- Claim C2 witness: a token one instant past its expiry is rejected, truly
deleted, and rejected again on the next lookup. -/
theorem c2_witness :
    (isValidSession 10 [] [("t", ⟨"x", 3⟩)] "t").1 = none ∧
    ((isValidSession 10 [] [("t", ⟨"x", 3⟩)] "t").2).lookup "t" = none ∧
    (isValidSession 10 [] ((isValidSession 10 [] [("t", ⟨"x", 3⟩)] "t").2) "t").1
      = none :=
  (c2_session_lazy_expiry 10 [] [("t", ⟨"x", 3⟩)] "t").2.1 ⟨"x", 3⟩ (by decide)
    (by decide)

/-- Claim C7: for every URL that does not start with `http://` or
`https://`, the add operation yields `invalidUrl` and leaves the target list
unchanged — no target is ever created. -/
theorem c7_invalid_url_rejected (ts : List PingTarget) (u : String)
    (h : validPingUrl u = false) :
    addTarget ts u = (AddResult.invalidUrl, ts) := by
  simp [addTarget, h]

/-- Claim C7 witness: adding `ftp://bad` is rejected and the list is
untouched. -/
theorem c7_witness :
    addTarget [⟨"https://ok.example", none, none⟩] "ftp://bad"
      = (AddResult.invalidUrl, [⟨"https://ok.example", none, none⟩]) :=
  c7_invalid_url_rejected [⟨"https://ok.example", none, none⟩] "ftp://bad" (by decide)

/-- Claim C10: the remove operation deletes every target whose URL equals the
given string, keeps all others in their original relative order, and is a
no-op (without error) when no target has that URL. -/
theorem c10_remove_target (ts : List PingTarget) (u : String) :
    (∀ t ∈ removeTarget ts u, t.url ≠ u) ∧
    List.Sublist (removeTarget ts u) ts ∧
    (∀ t ∈ ts, t.url ≠ u → t ∈ removeTarget ts u) ∧
    ((∀ t ∈ ts, t.url ≠ u) → removeTarget ts u = ts) := by
  refine ⟨?_, List.filter_sublist ts, ?_, ?_⟩
  · intro t ht
    have := List.of_mem_filter ht
    simpa using this
  · intro t ht h
    exact List.mem_filter.2 ⟨ht, by simpa using h⟩
  · intro h
    apply List.filter_eq_self.2
    intro t ht
    simpa using h t ht

/-- Claim C10 witness: removing a URL that is not present leaves the list
exactly as it was. -/
theorem c10_witness :
    removeTarget [⟨"https://a.example", none, none⟩, ⟨"https://b.example", none, none⟩]
        "https://c.example"
      = [⟨"https://a.example", none, none⟩, ⟨"https://b.example", none, none⟩] :=
  (c10_remove_target
      [⟨"https://a.example", none, none⟩, ⟨"https://b.example", none, none⟩]
      "https://c.example").2.2.2 (by decide)

/-- Claim C4: after one full sweep tick, (1) the per-account target URLs are
unchanged and in the same store/insertion order, (2) every target that
existed before the tick carries a non-empty outcome text of the form
`<status-or-error> (<elapsed>ms)` together with a last-check instant at or
after the tick start (both fields written together), (3) the emitted events
are exactly one write per target in store order then insertion order,
followed by (4) exactly one persistence flush after the full double
iteration. -/
theorem c4_sweep_tick (prober : Prober) (t0 : Int) (users : List User) :
    ((pingAllUrls prober t0 users).1.map (fun u => urlsOf u.pingTargets)
        = users.map (fun u => urlsOf u.pingTargets)) ∧
    (∀ u ∈ (pingAllUrls prober t0 users).1, ∀ tg ∈ u.pingTargets,
        (∃ out : PingOutcome,
          tg.status = some (targetStatusText out) ∧ targetStatusText out ≠ "") ∧
        (∃ tw : Int, tg.lastPing = some tw ∧ t0 ≤ tw)) ∧
    ((pingAllUrls prober t0 users).2
        = users.flatMap (fun u => u.pingTargets.map (fun tg => SweepEvent.write tg.url))
            ++ [SweepEvent.flush]) ∧
    (List.countP isFlush (pingAllUrls prober t0 users).2 = 1) := by
  have hevents : (pingAllUrls prober t0 users).2
      = users.flatMap (fun u => u.pingTargets.map (fun tg => SweepEvent.write tg.url))
          ++ [SweepEvent.flush] := by
    simp only [pingAllUrls, sweepUsers_events]
  refine ⟨?_, ?_, hevents, ?_⟩
  · simpa only [pingAllUrls] using sweepUsers_urls prober t0 users
  · intro u hu tg htg
    obtain ⟨⟨out, hout⟩, htw⟩ :=
      sweepUsers_written prober t0 users u (by simpa [pingAllUrls] using hu) tg htg
    exact ⟨⟨out, hout, targetStatusText_ne_empty out⟩, htw⟩
  · rw [hevents, List.countP_append, countP_isFlush_flatMap]
    simp [List.countP_cons, isFlush]

/-- Claim C5: the prober is total — on a response it returns the status-line
text with the elapsed ms, on any transport or timeout error it returns the
`Error:`-prefixed message with the elapsed ms — and a failed probe never
halts the sweep: whatever the prober returns, every target and every account
of the tick is still processed. -/
theorem c5_prober_total (st : Nat) (stx msg : String) (ms : Nat)
    (prober : Prober) (t : Int) (ts : List PingTarget) (users : List User) :
    (pingUrl (FetchResult.response st stx) ms
        = ⟨toString st ++ " " ++ stx, ms⟩) ∧
    (pingUrl (FetchResult.fetchError msg) ms = ⟨"Error: " ++ msg, ms⟩) ∧
    ((sweepTargets prober t ts).1.length = ts.length) ∧
    (∀ tg ∈ (sweepTargets prober t ts).1, tg.status.isSome = true) ∧
    ((sweepUsers prober t users).1.length = users.length) := by
  refine ⟨rfl, rfl, sweepTargets_length prober t ts, ?_, sweepUsers_length prober t users⟩
  intro tg htg
  obtain ⟨⟨out, hout⟩, _⟩ := sweepTargets_written prober t ts tg htg
  simp [hout]

/-- Claim C6: for a valid URL and an account whose target URLs are unique,
adding the same URL twice is a no-op the second time, leaves exactly one
target with that URL (case-sensitive exact match), and preserves URL
uniqueness. -/
theorem c6_idempotent_add (ts : List PingTarget) (u : String)
    (hvalid : validPingUrl u = true)
    (hnodup : (urlsOf ts).Nodup) :
    (addTarget (addTarget ts u).2 u).2 = (addTarget ts u).2 ∧
    ((addTarget ts u).2.filter (fun t => t.url == u)).length = 1 ∧
    (urlsOf (addTarget ts u).2).Nodup := by
  have hcount : ∀ l : List PingTarget,
      (l.filter (fun t => t.url == u)).length = (urlsOf l).count u := by
    intro l
    rw [← List.countP_eq_length_filter]
    simp only [urlsOf, List.count, List.countP_map]
    rfl
  by_cases hex : (ts.find? (fun t => t.url == u)).isSome
  · have hres : addTarget ts u = (AddResult.ok, ts) := by
      simp [addTarget, hvalid, hex]
    have hts2 : (addTarget ts u).2 = ts := by rw [hres]
    obtain ⟨t0, ht0mem, ht0u⟩ := List.find?_isSome.1 hex
    have ht0u' : t0.url = u := by simpa using ht0u
    have hmem : u ∈ urlsOf ts :=
      List.mem_map.2 ⟨t0, ht0mem, ht0u'⟩
    refine ⟨?_, ?_, ?_⟩
    · rw [hts2]
      exact hts2
    · rw [hts2, hcount]
      exact List.count_eq_one_of_mem hnodup hmem
    · rw [hts2]
      exact hnodup
  · have hnone : ts.find? (fun t => t.url == u) = none := by
      cases hfind : ts.find? (fun t => t.url == u) with
      | none => rfl
      | some x => exact absurd (by simp [hfind]) hex
    have hall : ∀ t ∈ ts, ¬ t.url = u := by
      intro t ht
      have := List.find?_eq_none.1 hnone t ht
      simpa using this
    have hres : addTarget ts u
        = (AddResult.ok, ts ++ [(⟨u, none, some "Chưa ping"⟩ : PingTarget)]) := by
      simp [addTarget, hvalid, hnone]
    have hts2 : (addTarget ts u).2 = ts ++ [(⟨u, none, some "Chưa ping"⟩ : PingTarget)] := by
      rw [hres]
    have hnotmem : u ∉ urlsOf ts := by
      intro hmem
      obtain ⟨t, ht, htu⟩ := List.mem_map.1 hmem
      exact hall t ht htu
    have hurls : urlsOf (ts ++ [(⟨u, none, some "Chưa ping"⟩ : PingTarget)])
        = urlsOf ts ++ [u] := by
      simp [urlsOf]
    refine ⟨?_, ?_, ?_⟩
    · have hmemnew : (⟨u, none, some "Chưa ping"⟩ : PingTarget)
          ∈ ts ++ [(⟨u, none, some "Chưa ping"⟩ : PingTarget)] :=
        List.mem_append_right _ (List.mem_singleton.2 rfl)
      have hfound : ((ts ++ [(⟨u, none, some "Chưa ping"⟩ : PingTarget)]).find?
          (fun t => t.url == u)).isSome :=
        List.find?_isSome.2 ⟨_, hmemnew, by simp⟩
      rw [hts2]
      simp [addTarget, hvalid, hfound]
    · rw [hts2]
      simp only [List.filter_append]
      have h1 : ts.filter (fun t => t.url == u) = [] := by
        apply List.filter_eq_nil_iff.2
        intro t ht
        simpa using hall t ht
      simp [h1]
    · rw [hts2, hurls, List.nodup_append]
      refine ⟨hnodup, List.nodup_singleton u, ?_⟩
      intro a ha hau
      rw [List.mem_singleton] at hau
      exact hnotmem (hau ▸ ha)

/-- Claim C6 witness: adding `https://example.com` twice to an empty account
leaves exactly one target with that URL. -/
theorem c6_witness :
    (addTarget (addTarget [] "https://example.com").2 "https://example.com").2
        = (addTarget [] "https://example.com").2 ∧
    ((addTarget [] "https://example.com").2.filter
        (fun t => t.url == "https://example.com")).length = 1 ∧
    (urlsOf (addTarget [] "https://example.com").2).Nodup :=
  c6_idempotent_add [] "https://example.com" (by decide) List.Pairwise.nil

/-- Claim C8: on a reaper tick in which zero accounts are removed (every
account's last login is strictly newer than the cutoff), nothing else
happens: no flush is issued, no log is emitted, the user list is untouched
and the session store is not mutated. -/
theorem c8_quiet_when_no_removals (now : Int) (s : ServerState)
    (h : ∀ u ∈ s.users, now - retentionMs < lastLoginD u) :
    (cleanupInactiveAccounts now s).1.users = s.users ∧
    (cleanupInactiveAccounts now s).1.sessions = s.sessions ∧
    (cleanupInactiveAccounts now s).2 = [] := by
  have hf : s.users.filter (fun u => decide (now - retentionMs < lastLoginD u))
      = s.users :=
    List.filter_eq_self.2 (fun u hu => decide_eq_true (h u hu))
  simp [cleanupInactiveAccounts, hf]

/-- Claim C8 witness: with one fresh account nothing is flushed, logged or
pruned. -/
theorem c8_witness :
    (cleanupInactiveAccounts 0 ⟨[bobC8], [("t", ⟨"b", 9⟩)]⟩).1.users = [bobC8] ∧
    (cleanupInactiveAccounts 0 ⟨[bobC8], [("t", ⟨"b", 9⟩)]⟩).1.sessions
      = [("t", ⟨"b", 9⟩)] ∧
    (cleanupInactiveAccounts 0 ⟨[bobC8], [("t", ⟨"b", 9⟩)]⟩).2 = [] :=
  c8_quiet_when_no_removals 0 ⟨[bobC8], [("t", ⟨"b", 9⟩)]⟩ (by decide)

/-- Claim C9: (1) if any account was removed by the tick, every session
remaining in the store resolves to a surviving account; together with the
unchanged-state zero-removal case this preserves the no-orphan invariant;
(2) if an account is removed by the tick (account ids being unique), no
session owned by it survives the same tick. -/
theorem c9_orphan_cleanup (now : Int) (s : ServerState) :
    ((∀ p ∈ s.sessions,
        (s.users.find? (fun v => v.id == p.2.userId)).isSome = true) →
      ∀ p ∈ (cleanupInactiveAccounts now s).1.sessions,
        ((cleanupInactiveAccounts now s).1.users.find?
            (fun v => v.id == p.2.userId)).isSome = true) ∧
    ((s.users.map User.id).Nodup →
      ∀ u ∈ s.users, u ∉ (cleanupInactiveAccounts now s).1.users →
      ∀ p ∈ (cleanupInactiveAccounts now s).1.sessions, p.2.userId ≠ u.id) := by
  by_cases hd : 0 < s.users.length
      - (s.users.filter (fun u => decide (now - retentionMs < lastLoginD u))).length
  · have hres : cleanupInactiveAccounts now s
        = (⟨s.users.filter (fun u => decide (now - retentionMs < lastLoginD u)),
            s.sessions.filter (fun p =>
              ((s.users.filter (fun u => decide (now - retentionMs < lastLoginD u))).find?
                (fun u => u.id == p.2.userId)).isSome)⟩,
           [ReaperEvent.log (s.users.length
              - (s.users.filter
                  (fun u => decide (now - retentionMs < lastLoginD u))).length),
            ReaperEvent.flush]) := by
      simp [cleanupInactiveAccounts, hd]
    constructor
    · intro _ p hp
      rw [hres] at hp ⊢
      exact (List.mem_filter.1 hp).2
    · intro hnodup u hu hnot p hp
      rw [hres] at hp hnot
      have hfind := (List.mem_filter.1 hp).2
      obtain ⟨v, hv, hvid⟩ := List.find?_isSome.1 hfind
      have hvid' : v.id = p.2.userId := by simpa using hvid
      intro heq
      have hvu : v = u :=
        List.inj_on_of_nodup_map hnodup (List.mem_of_mem_filter hv) hu
          (by rw [hvid', heq])
      exact hnot (hvu ▸ hv)
  · have hlen : s.users.length
        ≤ (s.users.filter (fun u => decide (now - retentionMs < lastLoginD u))).length := by
      omega
    have hself : s.users.filter (fun u => decide (now - retentionMs < lastLoginD u))
        = s.users := filter_eq_self_of_le_length _ _ hlen
    have hres : cleanupInactiveAccounts now s = (⟨s.users, s.sessions⟩, []) := by
      simp [cleanupInactiveAccounts, hself]
    constructor
    · intro hinv p hp
      rw [hres] at hp ⊢
      exact hinv p hp
    · intro _ u hu hnot
      rw [hres] at hnot
      exact absurd hu hnot

/-- Claim C9 witness: the stale account `carolC9` is removed and its active
session does not survive the same reaper tick. -/
theorem c9_witness :
    ("t", Session.mk "c" 99) ∉ (cleanupInactiveAccounts retentionMs stateC9).1.sessions := by
  intro hmem
  exact (c9_orphan_cleanup retentionMs stateC9).2 (by decide) carolC9 (by decide)
    (by decide) ("t", Session.mk "c" 99) hmem rfl

end AutoPing
